import Mathlib

/-!
Shallow embedding of `client/pkg/testutil/leak.go` (etcd's goroutine leak
detection test utility) together with proofs of the specification claims.

Strings are modelled as `List Char` (Go strings are byte sequences; the stack
dumps involved are ASCII, where bytes and code points coincide and byte-wise
lexicographic order equals code-point lexicographic order).  Durations are
modelled in milliseconds as integers; the polling loop of `CheckAfterTest`
advances logical time by its 50 ms sleep each iteration, so the poll at
iteration `k` happens at elapsed time `50 * k`.
-/

namespace LeakCheck

abbrev Str := List Char

/-- Go `strings.HasPrefix`-style check: `startsWith s p` is true when `p` is a
prefix of `s`. -/
def startsWith : Str → Str → Bool
  | _, [] => true
  | [], _ :: _ => false
  | c :: s, p :: ps => c = p && startsWith s ps

/-- Go `strings.Contains`: `containsSub s p` holds when `p` occurs as a
contiguous substring of `s`. -/
def containsSub : Str → Str → Bool
  | [], pat => startsWith [] pat
  | c :: t, pat => startsWith (c :: t) pat || containsSub t pat

/-- Go `strings.Split(s, "\n\n")`: split on each non-overlapping occurrence of
two consecutive newlines, scanning left to right. -/
def splitNN : Str → List Str
  | [] => [[]]
  | '\n' :: '\n' :: t => [] :: splitNN t
  | c :: t =>
    match splitNN t with
    | [] => [[c]]
    | h :: r => (c :: h) :: r

/-- Go `strings.SplitN(g, "\n", 2)`: `none` when `g` has no newline (the Go
split has length 1 there), otherwise the part before the first newline and the
part after it. -/
def splitFirstNL : Str → Option (Str × Str)
  | [] => none
  | c :: t =>
    if c = '\n' then some ([], t)
    else (splitFirstNL t).map (fun p => (c :: p.1, p.2))

/-- The white-space predicate used by Go `strings.TrimSpace` (Latin-1 range;
stack dumps only ever contain the ASCII members). -/
def isSpaceGo (c : Char) : Bool :=
  c = ' ' || c = '\t' || c = '\n' || c = '\x0b' || c = '\x0c' || c = '\r' ||
  c = '\u0085' || c = '\u00A0'

/-- Go `strings.TrimSpace`. -/
def trimSpace (s : Str) : Str :=
  ((s.dropWhile isSpaceGo).reverse.dropWhile isSpaceGo).reverse

/-- The fixed allowlist `uninterestingMsgs` from `interestingGoroutines`,
in source order. -/
def uninterestingMsgs : List Str :=
  [("sync.(*WaitGroup).Done").data,
   ("os.(*file).close").data,
   ("os.(*Process).Release").data,
   ("created by os/signal.init").data,
   ("runtime/panic.go").data,
   ("created by testing.RunTests").data,
   ("created by testing.runTests").data,
   ("created by testing.(*T).Run").data,
   ("testing.Main(").data,
   ("runtime.goexit").data,
   ("go.etcd.io/etcd/client/pkg/v3/testutil.interestingGoroutines").data,
   ("go.etcd.io/etcd/client/pkg/v3/logutil.(*MergeLogger).outputLoop").data,
   ("github.com/golang/glog.(*loggingT).flushDaemon").data,
   ("created by runtime.gc").data,
   ("created by text/template/parse.lex").data,
   ("runtime.MHeap_Scavenger").data,
   ("rcrypto/internal/boring.(*PublicKeyRSA).finalize").data,
   ("net.(*netFD).Close(").data,
   ("testing.(*T).Run").data,
   ("crypto/tls.(*certCache).evict").data]

/-- The stack frame of the Snapshotter itself (one of the allowlist entries). -/
def snapshotterFrame : Str :=
  ("go.etcd.io/etcd/client/pkg/v3/testutil.interestingGoroutines").data

/-- One segment's treatment inside `interestingGoroutines`: split off the
header line, trim the body, drop empty bodies and bodies containing any
allowlist substring. -/
def classifySeg (g : Str) : Option Str :=
  match splitFirstNL g with
  | none => none
  | some pr =>
    let stack := trimSpace pr.2
    if stack = [] then none
    else if uninterestingMsgs.any (fun m => containsSub stack m) then none
    else some stack

/-- The surviving stacks of a raw dump, in dump order (the list `gs` built by
`interestingGoroutines` before its final sort). -/
def survivors (buf : Str) : List Str :=
  (splitNN buf).filterMap classifySeg

/-- Byte-wise lexicographic order on strings, as used by Go `sort.Strings`. -/
def lexLe : Str → Str → Bool
  | [], _ => true
  | _ :: _, [] => false
  | a :: s, b :: t =>
    if a < b then true
    else if a = b then lexLe s t
    else false

/-- Insert into a `lexLe`-sorted list, keeping it sorted. -/
def insertLe (a : Str) : List Str → List Str
  | [] => [a]
  | b :: l => if lexLe a b then a :: b :: l else b :: insertLe a l

/-- `sort.Strings`: sort in byte-wise lexicographic order.  (Any comparison
sort produces this same list: `lexLe` is total and antisymmetric, so the sorted
permutation of a list is unique.) -/
def sortStrs : List Str → List Str
  | [] => []
  | a :: l => insertLe a (sortStrs l)

/-- `interestingGoroutines` from leak.go, as a function of the raw stack dump
text supplied by the runtime. -/
def interestingGoroutines (buf : Str) : List Str :=
  sortStrs (survivors buf)

/-- Spec-side restatement of the Classifier's per-segment rule, following the
claim's wording: keep a segment when it has a non-empty body after the header
line, the body contains no frame of the Snapshotter itself, and it contains no
Allowlist substring. -/
def specKeeps (g : Str) : Option Str :=
  match splitFirstNL g with
  | none => none
  | some pr =>
    let body := trimSpace pr.2
    if body = [] then none
    else if containsSub body snapshotterFrame then none
    else if uninterestingMsgs.any (fun m => containsSub body m) then none
    else some body

/-- Character class of the pointer-address regexp `\(0[0-9a-fx, ]*\)`. -/
def isAddrChar (c : Char) : Bool :=
  ('0' ≤ c && c ≤ '9') || ('a' ≤ c && c ≤ 'f') || c = 'x' || c = ',' || c = ' '

/-- After the opening `(0` of the pointer-address regexp: consume characters of
the class `[0-9a-fx, ]` until the closing `)`; return the remainder after `)`
on success.  Since `)` is not in the class, this equals the greedy RE2 match. -/
def matchRun : Str → Option Str
  | [] => none
  | c :: t => if c = ')' then some t else if isAddrChar c then matchRun t else none

/-- Match the tail `0[0-9a-fx, ]*\)` of the pointer-address regexp (the `(`
has already been consumed); returns the remainder after the match. -/
def matchAddr : Str → Option Str
  | [] => none
  | c :: t => if c = '0' then matchRun t else none

/-- Fuel-indexed scan of `normalizedRegexp.ReplaceAll`: replace each leftmost
non-overlapping match of `\(0[0-9a-fx, ]*\)` by `(...)` and continue after it.
A successful match consumes at least three characters, so fuel `s.length`
always suffices; the fuel only makes the recursion structural. -/
def normalizeF : Nat → Str → Str
  | 0, s => s
  | _ + 1, [] => []
  | fuel + 1, c :: t =>
    if c = '(' then
      match matchAddr t with
      | some rest => '(' :: '.' :: '.' :: '.' :: ')' :: normalizeF fuel rest
      | none => '(' :: normalizeF fuel t
    else c :: normalizeF fuel t

/-- `normalizedRegexp.ReplaceAll(g, "(...)")`. -/
def normalize (s : Str) : Str := normalizeF s.length s

/-- The `badSubstring` table of `CheckAfterTest`, in source order.  Go iterates
over it as a map, in unspecified order; theorems therefore quantify over
permutations of this list where the order matters. -/
def badSubstring : List (Str × Str) :=
  [((").writeLoop(").data, ("a Transport").data),
   (("created by net/http/httptest.(*Server).Start").data, ("an httptest.Server").data),
   (("timeoutHandler").data, ("a TimeoutHandler").data),
   (("net.(*netFD).connect(").data, ("a timing out dial").data),
   ((").noteClientGone(").data, ("a closenotifier sender").data),
   ((").readLoop(").data, ("a Transport").data),
   ((".grpc").data, ("a gRPC resource").data),
   ((").sendCloseSubstream(").data, ("a stream closing routine").data)]

/-- The scan `for substr, what := range badSubstring { if strings.Contains(stacks,
substr) { bad = what } }`, starting from the reset value `bad = ""`. -/
def computeBad (order : List (Str × Str)) (stks : Str) : Str :=
  order.foldl (fun b p => if containsSub stks p.1 then p.2 else b) []

/-- Go `strings.Join(gs, "\n\n")`. -/
def joinNN : List Str → Str
  | [] => []
  | [g] => g
  | g :: r => g ++ '\n' :: '\n' :: joinNN r

/-- Number of loop iterations of `CheckAfterTest` for timeout `d` (in ms): the
poll at iteration `k` happens at elapsed time `50 * k`, and runs while that is
`< d`.  Non-positive `d` admits no iteration at all. -/
def numPolls (d : Int) : Nat :=
  if d ≤ 0 then 0 else ((d + 49) / 50).toNat

/-- The polling loop of `CheckAfterTest`: `n` iterations remain, `k` is the
index of the next poll, `bad`/`stks` carry the values left by the previous
iteration (both start out as the empty string). -/
def checkLoop (order : List (Str × Str)) (dumps : Nat → Str) :
    Nat → Nat → Str → Str → Option (Str × Str)
  | 0, _, bad, stks => some (bad, stks)
  | n + 1, k, _, _ =>
    let gs := interestingGoroutines (dumps k)
    if gs = [] then none
    else
      let stks := joinNN gs
      checkLoop order dumps n (k + 1) (computeBad order stks) stks

/-- `CheckAfterTest(d)` over the family `dumps` of raw stack dumps observed at
the successive polls: `none` models a `nil` error (success); `some (bad,
stacks)` models the error built by `fmt.Errorf` from the final values of `bad`
and `stacks`. -/
def checkAfterTest (d : Int) (order : List (Str × Str)) (dumps : Nat → Str) :
    Option (Str × Str) :=
  checkLoop order dumps (numPolls d) 0 [] []

/-- The text of the error `fmt.Errorf("appears to have leaked %s:\n%s", bad,
stacks)`. -/
def leakMessage (bad stks : Str) : Str :=
  ("appears to have leaked ").data ++ bad ++ (":\n").data ++ stks

/-- Outcome of `RegisterLeakDetection`: either the test is skipped up front, or
the after-test cleanup is registered and the test proceeds. -/
inductive RegOutcome
  | skipped
  | cleanupRegistered
  deriving DecidableEq

/-- `RegisterLeakDetection(t)`: a short 10 ms pre-test check; on error the test
is skipped, otherwise the cleanup is registered. -/
def registerLeakDetection (order : List (Str × Str)) (dumps : Nat → Str) :
    RegOutcome :=
  match checkAfterTest 10 order dumps with
  | some _ => .skipped
  | none => .cleanupRegistered

/-- `afterTest(t)`: when the test has not already failed, run the 1 s polling
check and report its error via `t.Errorf("Test %v", err)`; the result is the
reported error text, or `none` when nothing is reported. -/
def afterTest (failed : Bool) (order : List (Str × Str)) (dumps : Nat → Str) :
    Option Str :=
  if failed then none
  else (checkAfterTest 1000 order dumps).map
    (fun p => ("Test ").data ++ leakMessage p.1 p.2)

/-- `stackCount[normalized]++` on an association list: increment the first
entry with the given key, or append a fresh entry with count 1. -/
def incr : List (Str × Nat) → Str → List (Str × Nat)
  | [], k => [(k, 1)]
  | (k', n) :: r, k => if k' = k then (k', n + 1) :: r else (k', n) :: incr r k

/-- The `stackCount` map of `CheckLeakedGoroutine`, keyed by normalized stack
text, with entries in first-occurrence order (Go iterates the map in
unspecified order; only the key set and the counts are claimed). -/
def buildCount (gs : List Str) : List (Str × Nat) :=
  gs.foldl (fun acc g => incr acc (normalize g)) []

/-- Count associated with a key in the association list (0 when absent). -/
def lookupN : List (Str × Nat) → Str → Nat
  | [], _ => 0
  | (k', n) :: r, k => if k' = k then n else lookupN r k

/-- The header line printed by `CheckLeakedGoroutine`. -/
def header : Str := ("Unexpected goroutines running after all test(s).\n").data

/-- One `fmt.Fprintf(os.Stderr, "%d instances of:\n%s\n", count, stack)` line
group of `CheckLeakedGoroutine`. -/
def fmtLine (p : Str × Nat) : Str :=
  (Nat.repr p.2).data ++ (" instances of:\n").data ++ p.1 ++ ['\n']

/-- `CheckLeakedGoroutine()` over the raw dump `buf`: the returned boolean and
the list of strings written to stderr, in order. -/
def checkLeakedGoroutine (buf : Str) : Bool × List Str :=
  let gs := interestingGoroutines buf
  if gs = [] then (false, [])
  else (true, header :: (buildCount gs).map fmtLine)

/-- `MustCheckLeakedGoroutine()`: the 5 s `CheckAfterTest` call's result is
discarded by the source; the process exits with status 1 exactly when
`CheckLeakedGoroutine` reports a leak on the final snapshot `finalBuf`.
`some 1` models that exit, `none` a normal return. -/
def mustCheckLeakedGoroutine (order : List (Str × Str)) (dumps : Nat → Str)
    (finalBuf : Str) : Option Nat :=
  let _ := checkAfterTest 5000 order dumps
  if (checkLeakedGoroutine finalBuf).1 then some 1 else none

/-- `MustTestMainWithLeakDetection(m)`: run the suite (exit value `v`); when it
passed, run the leak reporter and exit 1 on a leak; always propagate `v`
otherwise.  The result is the process exit status. -/
def mustTestMainWithLeakDetection (v : Nat) (order : List (Str × Str))
    (dumps : Nat → Str) (finalBuf : Str) : Nat :=
  if v = 0 then
    match mustCheckLeakedGoroutine order dumps finalBuf with
    | some c => c
    | none => 0
  else v

/-- Two stack traces are identical except for differing parenthesized
pointer-address literals: equal characters everywhere, except that aligned
occurrences of full matches of `\(0[0-9a-fx, ]*\)` may have different address
runs. -/
inductive AddrEquiv : Str → Str → Prop
  | nil : AddrEquiv [] []
  | cons (c : Char) {s t : Str} : AddrEquiv s t → AddrEquiv (c :: s) (c :: t)
  | lit {r1 r2 s t : Str}
      (h1 : ∀ c ∈ r1, isAddrChar c = true) (h2 : ∀ c ∈ r2, isAddrChar c = true) :
      AddrEquiv s t →
      AddrEquiv ('(' :: '0' :: (r1 ++ ')' :: s)) ('(' :: '0' :: (r2 ++ ')' :: t))

/-- A dump whose single goroutine contains `).writeLoop(` and nothing from the
allowlist or the rest of the badness table. -/
def wlDump : Str := ("h:\nx).writeLoop(\n").data

/-- The surviving trimmed body of `wlDump`. -/
def wlBody : Str := ("x).writeLoop(").data

/-- A dump with one allowlisted goroutine and one genuine leak. -/
def demoDump : Str :=
  ("g1:\ncreated by testing.RunTests\n\ng2:\nmain.leakyTask()\n").data

theorem lexLe_total : ∀ s t : Str, lexLe s t || lexLe t s := by
  intro s
  induction s with
  | nil => intro t; simp [lexLe]
  | cons a s ih =>
    intro t
    cases t with
    | nil => simp [lexLe]
    | cons b t =>
      by_cases hab : a < b
      · simp [lexLe, hab]
      · by_cases heq : a = b
        · subst heq
          have := ih t
          simp [lexLe, hab] at this ⊢
          tauto
        · have hba : b < a := by
            rcases lt_trichotomy a b with h | h | h
            · exact absurd h hab
            · exact absurd h heq
            · exact h
          simp [lexLe, hba]

theorem lexLe_trans : ∀ s t u : Str, lexLe s t → lexLe t u → lexLe s u := by
  intro s
  induction s with
  | nil => intro t u _ _; simp [lexLe]
  | cons a s ih =>
    intro t u hst htu
    cases t with
    | nil => simp [lexLe] at hst
    | cons b t =>
      cases u with
      | nil => simp [lexLe] at htu
      | cons c u =>
        simp only [lexLe] at hst htu ⊢
        by_cases hab : a < b
        · -- a < b; combine with b ≤ c
          by_cases hbc : b < c
          · have : a < c := lt_trans hab hbc
            simp [this]
          · by_cases hbce : b = c
            · subst hbce; simp [hab]
            · simp [hbc, hbce] at htu
        · by_cases habe : a = b
          · subst habe
            simp [hab] at hst
            by_cases hbc : a < c
            · simp [hbc]
            · by_cases hbce : a = c
              · subst hbce
                simp [hbc] at htu ⊢
                exact ih t u hst htu
              · simp [hbc, hbce] at htu
          · simp [hab, habe] at hst

theorem containsSub_nil_pat : ∀ s : Str, containsSub s [] = true := by
  intro s; cases s <;> simp [containsSub, startsWith]

theorem startsWith_append : ∀ p w : Str, startsWith (p ++ w) p = true := by
  intro p
  induction p with
  | nil => intro w; simp [startsWith]
  | cons c p ih => intro w; simp [startsWith, ih]

theorem containsSub_of_starts {s p : Str} (h : startsWith s p = true) :
    containsSub s p = true := by
  cases s with
  | nil => simpa [containsSub] using h
  | cons c t => simp [containsSub, h]

theorem containsSub_append_left (u : Str) {v p : Str} (h : containsSub v p = true) :
    containsSub (u ++ v) p = true := by
  induction u with
  | nil => simpa using h
  | cons c u ih => simp [containsSub, ih]

theorem containsSub_mid (u p w : Str) : containsSub (u ++ p ++ w) p = true := by
  rw [List.append_assoc]
  exact containsSub_append_left u
    (containsSub_of_starts (startsWith_append p w))

theorem mem_insertLe (x a : Str) : ∀ l, x ∈ insertLe a l ↔ x = a ∨ x ∈ l := by
  intro l
  induction l with
  | nil => simp [insertLe]
  | cons b l ih =>
    by_cases h : lexLe a b = true
    · simp [insertLe, h]
    · simp only [insertLe, if_neg h, List.mem_cons, ih]
      tauto

theorem insertLe_perm (a : Str) : ∀ l, (insertLe a l).Perm (a :: l) := by
  intro l
  induction l with
  | nil => simp [insertLe]
  | cons b l ih =>
    by_cases h : lexLe a b = true
    · simp [insertLe, h]
    · simp only [insertLe, if_neg (by simp [h] : ¬ (lexLe a b = true))]
      exact (List.Perm.cons b ih).trans (List.Perm.swap a b l)

theorem sortStrs_perm : ∀ l : List Str, (sortStrs l).Perm l := by
  intro l
  induction l with
  | nil => simp [sortStrs]
  | cons a l ih =>
    exact (insertLe_perm a (sortStrs l)).trans (List.Perm.cons a ih)

theorem insertLe_pairwise {a : Str} :
    ∀ {l : List Str}, l.Pairwise (fun x y => lexLe x y = true) →
      (insertLe a l).Pairwise (fun x y => lexLe x y = true) := by
  intro l
  induction l with
  | nil => intro _; simp [insertLe]
  | cons b l ih =>
    intro h
    rw [List.pairwise_cons] at h
    obtain ⟨hb, hl⟩ := h
    by_cases hab : lexLe a b = true
    · simp only [insertLe, if_pos hab, List.pairwise_cons]
      refine ⟨?_, hb, hl⟩
      intro x hx
      rcases List.mem_cons.mp hx with rfl | hx
      · exact hab
      · exact lexLe_trans a b x hab (hb x hx)
    · have hba : lexLe b a = true := by
        have := lexLe_total a b
        simp [hab] at this
        exact this
      simp only [insertLe, if_neg (by simp [hab] : ¬ (lexLe a b = true)),
        List.pairwise_cons]
      refine ⟨?_, ih hl⟩
      intro x hx
      rcases (mem_insertLe x a l).mp hx with rfl | hx
      · exact hba
      · exact hb x hx

theorem sortStrs_pairwise :
    ∀ l : List Str, (sortStrs l).Pairwise (fun x y => lexLe x y = true) := by
  intro l
  induction l with
  | nil => simp [sortStrs]
  | cons a l ih => exact insertLe_pairwise ih

theorem snapshotterFrame_mem : snapshotterFrame ∈ uninterestingMsgs := by
  simp [snapshotterFrame, uninterestingMsgs]

theorem classifySeg_eq_specKeeps : ∀ g : Str, classifySeg g = specKeeps g := by
  intro g
  unfold classifySeg specKeeps
  cases splitFirstNL g with
  | none => rfl
  | some pr =>
    simp only
    by_cases h0 : trimSpace pr.2 = []
    · simp [h0]
    · simp only [if_neg h0]
      by_cases hf : containsSub (trimSpace pr.2) snapshotterFrame = true
      · have hany : (uninterestingMsgs.any
            (fun m => containsSub (trimSpace pr.2) m)) = true := by
          exact List.any_eq_true.mpr ⟨snapshotterFrame, snapshotterFrame_mem, hf⟩
        simp [hany, hf]
      · simp [hf]

theorem survivors_eq_spec (buf : Str) :
    survivors buf = (splitNN buf).filterMap specKeeps := by
  unfold survivors
  congr 1
  exact funext classifySeg_eq_specKeeps

/-- Claim C1: `classify` (the function `interestingGoroutines` applied to a raw
stack dump) returns exactly the segments that have a non-empty body after the
header line and whose body contains no Allowlist substring and no frame of the
Snapshotter itself, sorted lexicographically; a dump with only
Allowlist-matching segments yields the empty sequence, and a dump with at
least one non-matching segment yields a non-empty sequence containing exactly
those segments. -/
theorem claimC1_classify (buf : Str) :
    (interestingGoroutines buf).Pairwise (fun x y => lexLe x y = true)
    ∧ (interestingGoroutines buf).Perm ((splitNN buf).filterMap specKeeps)
    ∧ (∀ s : Str, s ∈ interestingGoroutines buf ↔
        ∃ g ∈ splitNN buf, specKeeps g = some s)
    ∧ ((∀ g ∈ splitNN buf, specKeeps g = none) → interestingGoroutines buf = [])
    ∧ ((∃ g ∈ splitNN buf, (specKeeps g).isSome) →
        interestingGoroutines buf ≠ []) := by
  have hperm : (interestingGoroutines buf).Perm ((splitNN buf).filterMap specKeeps) := by
    rw [interestingGoroutines, survivors_eq_spec buf] at *
    exact sortStrs_perm _
  refine ⟨sortStrs_pairwise _, hperm, ?_, ?_, ?_⟩
  · intro s
    rw [hperm.mem_iff, List.mem_filterMap]
  · intro hall
    have : (splitNN buf).filterMap specKeeps = [] :=
      List.filterMap_eq_nil_iff.mpr hall
    rw [interestingGoroutines, survivors_eq_spec buf, this]
    rfl

  · rintro ⟨g, hg, hsome⟩
    obtain ⟨s, hs⟩ := Option.isSome_iff_exists.mp hsome
    have hmem : s ∈ (splitNN buf).filterMap specKeeps :=
      List.mem_filterMap.mpr ⟨g, hg, hs⟩
    exact List.ne_nil_of_mem (hperm.mem_iff.mpr hmem)

/-- Witness for C1 at a concrete dump with one allowlisted segment and one
genuine leak. -/
theorem claimC1_witness :
    (∃ g ∈ splitNN demoDump, (specKeeps g).isSome) ∧
      interestingGoroutines demoDump ≠ [] :=
  ⟨by decide, (claimC1_classify demoDump).2.2.2.2 (by decide)⟩

theorem checkLoop_zero (order : List (Str × Str)) (dumps : Nat → Str)
    (k : Nat) (b s : Str) : checkLoop order dumps 0 k b s = some (b, s) := rfl

theorem checkLoop_succ (order : List (Str × Str)) (dumps : Nat → Str)
    (n k : Nat) (b s : Str) :
    checkLoop order dumps (n + 1) k b s =
      if interestingGoroutines (dumps k) = [] then none
      else checkLoop order dumps n (k + 1)
        (computeBad order (joinNN (interestingGoroutines (dumps k))))
        (joinNN (interestingGoroutines (dumps k))) := rfl

theorem checkLoop_none_iff (order : List (Str × Str)) (dumps : Nat → Str) :
    ∀ (n k : Nat) (b s : Str), checkLoop order dumps n k b s = none ↔
      ∃ j, j < n ∧ interestingGoroutines (dumps (k + j)) = [] := by
  intro n
  induction n with
  | zero => intro k b s; simp [checkLoop_zero]
  | succ n ih =>
    intro k b s
    rw [checkLoop_succ]
    by_cases h : interestingGoroutines (dumps k) = []
    · simp only [if_pos h, true_iff]
      exact ⟨0, by omega, by simpa using h⟩
    · rw [if_neg h, ih]
      constructor
      · rintro ⟨j, hj, he⟩
        refine ⟨j + 1, by omega, ?_⟩
        have : k + (j + 1) = k + 1 + j := by omega
        rw [this]; exact he
      · rintro ⟨j, hj, he⟩
        cases j with
        | zero => exact absurd (by simpa using he) h
        | succ j =>
          refine ⟨j, by omega, ?_⟩
          have : k + 1 + j = k + (j + 1) := by omega
          rw [this]; exact he

theorem checkLoop_all_nonempty (order : List (Str × Str)) (dumps : Nat → Str) :
    ∀ (n k : Nat) (b s : Str),
      (∀ j, j < n + 1 → interestingGoroutines (dumps (k + j)) ≠ []) →
      checkLoop order dumps (n + 1) k b s =
        some (computeBad order (joinNN (interestingGoroutines (dumps (k + n)))),
              joinNN (interestingGoroutines (dumps (k + n)))) := by
  intro n
  induction n with
  | zero =>
    intro k b s h
    have h0 : interestingGoroutines (dumps k) ≠ [] := by
      have := h 0 (by omega); simpa using this
    rw [checkLoop_succ, if_neg h0, checkLoop_zero]
    simp
  | succ n ih =>
    intro k b s h
    have h0 : interestingGoroutines (dumps k) ≠ [] := by
      have := h 0 (by omega); simpa using this
    rw [checkLoop_succ, if_neg h0]
    have hrec := ih (k + 1)
      (computeBad order (joinNN (interestingGoroutines (dumps k))))
      (joinNN (interestingGoroutines (dumps k)))
      (fun j hj => by
        have := h (j + 1) (by omega)
        have harith : k + (j + 1) = k + 1 + j := by omega
        rw [harith] at this
        exact this)
    rw [hrec]
    have harith : k + 1 + n = k + (n + 1) := by omega
    rw [harith]

theorem numPolls_pos {d : Int} (hd : 0 < d) : 0 < numPolls d := by
  have h1 : (1 : Int) ≤ (d + 49) / 50 := by
    rw [Int.le_ediv_iff_mul_le (by norm_num : (0 : Int) < 50)]
    omega
  rw [numPolls, if_neg (by omega : ¬ d ≤ 0)]
  omega

theorem foldBad_nomatch (stks : Str) :
    ∀ (order : List (Str × Str)) (b : Str),
      (∀ p ∈ order, containsSub stks p.1 = false) →
      order.foldl (fun b p => if containsSub stks p.1 then p.2 else b) b = b := by
  intro order
  induction order with
  | nil => intro b _; rfl
  | cons q r ih =>
    intro b h
    have hq : containsSub stks q.1 = false := h q (List.mem_cons_self q r)
    simp only [List.foldl_cons, hq, Bool.false_eq_true, if_false]
    exact ih b (fun p hp => h p (List.mem_cons_of_mem q hp))

theorem foldBad_match (stks : Str) :
    ∀ (order : List (Str × Str)) (b : Str),
      (∃ p ∈ order, containsSub stks p.1 = true) →
      ∃ p ∈ order, containsSub stks p.1 = true ∧
        order.foldl (fun b p => if containsSub stks p.1 then p.2 else b) b = p.2 := by
  intro order
  induction order with
  | nil => rintro b ⟨p, hp, _⟩; exact absurd hp (List.not_mem_nil p)
  | cons q r ih =>
    intro b hex
    by_cases hr : ∃ p ∈ r, containsSub stks p.1 = true
    · obtain ⟨p, hp, hc, he⟩ := ih (if containsSub stks q.1 then q.2 else b) hr
      exact ⟨p, List.mem_cons_of_mem q hp, hc, he⟩
    · have hnone : ∀ p ∈ r, containsSub stks p.1 = false := by
        intro p hp
        by_contra hcon
        exact hr ⟨p, hp, by simpa using hcon⟩
      have hq : containsSub stks q.1 = true := by
        obtain ⟨p, hp, hc⟩ := hex
        rcases List.mem_cons.mp hp with rfl | hp
        · exact hc
        · exact absurd hc (by simp [hnone p hp])
      refine ⟨q, List.mem_cons_self q r, hq, ?_⟩
      simp only [List.foldl_cons, hq, if_true]
      exact foldBad_nomatch stks r q.2 hnone

theorem computeBad_nomatch (stks : Str) (order : List (Str × Str))
    (h : ∀ p ∈ order, containsSub stks p.1 = false) :
    computeBad order stks = [] :=
  foldBad_nomatch stks order [] h

theorem computeBad_match (stks : Str) (order : List (Str × Str))
    (h : ∃ p ∈ order, containsSub stks p.1 = true) :
    ∃ p ∈ order, containsSub stks p.1 = true ∧ computeBad order stks = p.2 :=
  foldBad_match stks order [] h

theorem computeBad_unique (stks w : Str) (order : List (Str × Str))
    (hex : ∃ p ∈ order, containsSub stks p.1 = true)
    (hall : ∀ p ∈ order, containsSub stks p.1 = true → p.2 = w) :
    computeBad order stks = w := by
  obtain ⟨p, hp, hc, he⟩ := computeBad_match stks order hex
  rw [he]
  exact hall p hp hc

theorem checkAfterTest_none_iff (d : Int) (order : List (Str × Str))
    (dumps : Nat → Str) :
    checkAfterTest d order dumps = none ↔
      ∃ k, k < numPolls d ∧ interestingGoroutines (dumps k) = [] := by
  rw [checkAfterTest, checkLoop_none_iff]
  simp

theorem checkAfterTest_fail (d : Int) (order : List (Str × Str))
    (dumps : Nat → Str) (hd : 0 < d)
    (hall : ∀ k, k < numPolls d → interestingGoroutines (dumps k) ≠ []) :
    checkAfterTest d order dumps =
      some (computeBad order
              (joinNN (interestingGoroutines (dumps (numPolls d - 1)))),
            joinNN (interestingGoroutines (dumps (numPolls d - 1)))) := by
  obtain ⟨n, hn⟩ : ∃ n, numPolls d = n + 1 := by
    have := numPolls_pos hd
    exact ⟨numPolls d - 1, by omega⟩
  rw [checkAfterTest, hn]
  have := checkLoop_all_nonempty order dumps n 0 [] []
    (fun j hj => by rw [Nat.zero_add]; exact hall j (by omega))
  simpa [hn] using this

/-- Claim C2 (amended to positive timeouts; see the counterexample for the
non-positive case): for every positive timeout `d`, `checkAfterTest d` returns
success exactly when some poll within the window observes zero interesting
stacks — and does so regardless of what later polls would show — and returns
failure exactly when every poll of the window sees survivors, the failure
carrying the data of the final poll. -/
theorem claimC2_polling_window (d : Int) (order : List (Str × Str))
    (dumps : Nat → Str) (hd : 0 < d) :
    (checkAfterTest d order dumps = none ↔
      ∃ k, k < numPolls d ∧ interestingGoroutines (dumps k) = [])
    ∧ ((∀ k, k < numPolls d → interestingGoroutines (dumps k) ≠ []) →
        checkAfterTest d order dumps =
          some (computeBad order
                  (joinNN (interestingGoroutines (dumps (numPolls d - 1)))),
                joinNN (interestingGoroutines (dumps (numPolls d - 1)))))
    ∧ (∀ j, j < numPolls d → interestingGoroutines (dumps j) = [] →
        ∀ dumps' : Nat → Str, (∀ k, k ≤ j → dumps' k = dumps k) →
          checkAfterTest d order dumps' = none) := by
  refine ⟨checkAfterTest_none_iff d order dumps, checkAfterTest_fail d order dumps hd, ?_⟩
  intro j hj hempty dumps' hagree
  rw [checkAfterTest_none_iff]
  refine ⟨j, hj, ?_⟩
  rw [hagree j (Nat.le_refl j)]
  exact hempty

/-- Counterexample to C2 as stated for every timeout: at the non-positive
timeout 0, `checkAfterTest` performs no poll at all and returns failure even
though the process has zero interesting goroutines throughout. -/
theorem claimC2_counterexample :
    checkAfterTest 0 badSubstring (fun _ => ([] : Str)) = some ([], [])
    ∧ numPolls 0 = 0
    ∧ interestingGoroutines ([] : Str) = [] := by
  exact ⟨rfl, rfl, rfl⟩

/-- Witness for the amended C2 at concrete inputs: with a 100 ms window and a
dump that becomes clean at the second poll, the check succeeds; with a
persistently leaking dump it fails with the final poll's data. -/
theorem claimC2_witness :
    checkAfterTest 100 badSubstring
      (fun k => if k = 0 then wlDump else ([] : Str)) = none
    ∧ checkAfterTest 100 badSubstring (fun _ => wlDump) =
        some (computeBad badSubstring
                (joinNN (interestingGoroutines wlDump)),
              joinNN (interestingGoroutines wlDump)) := by
  constructor
  · exact (claimC2_polling_window 100 badSubstring _ (by norm_num)).1.mpr
      ⟨1, by decide, by decide⟩
  · exact (claimC2_polling_window 100 badSubstring _ (by norm_num)).2.1
      (fun k _ => by
        have : interestingGoroutines wlDump = [wlBody] := by decide
        simp [this])

/-- Claim C3: when `checkAfterTest` returns failure, the failure message is
built from the `bad` label and concatenated stack text remembered at the last
poll — the label of some matching Badness Table entry when one matches, the
empty (generic "leaked") label otherwise — and the message contains the word
"leaked" and the full stack text; in particular, a persisting trace containing
`).writeLoop(` makes the message contain "a Transport" for every iteration
order of the table. -/
theorem claimC3_failure_message :
    (∀ (d : Int) (order : List (Str × Str)) (dumps : Nat → Str) (bad stks : Str),
      0 < d →
      checkAfterTest d order dumps = some (bad, stks) →
      stks = joinNN (interestingGoroutines (dumps (numPolls d - 1)))
      ∧ bad = computeBad order stks
      ∧ ((∀ p ∈ order, containsSub stks p.1 = false) → bad = [])
      ∧ ((∃ p ∈ order, containsSub stks p.1 = true) →
          ∃ p ∈ order, containsSub stks p.1 = true ∧ bad = p.2)
      ∧ containsSub (leakMessage bad stks) bad = true
      ∧ containsSub (leakMessage bad stks) (("leaked").data) = true
      ∧ containsSub (leakMessage bad stks) stks = true)
    ∧ (∀ (d : Int) (order : List (Str × Str)),
        0 < d → order.Perm badSubstring →
        ∃ bad stks,
          checkAfterTest d order (fun _ => wlDump) = some (bad, stks)
          ∧ containsSub (leakMessage bad stks) (("a Transport").data) = true) := by
  have hsplit : ("appears to have leaked ").data =
      ("appears to have ").data ++ ("leaked").data ++ (" ").data := by decide
  have hleaked : ∀ bad stks : Str,
      containsSub (leakMessage bad stks) (("leaked").data) = true := by
    intro bad stks
    have hmid : leakMessage bad stks =
        ("appears to have ").data ++ ("leaked").data ++
          ((" ").data ++ bad ++ (":\n").data ++ stks) := by
      simp only [leakMessage, hsplit]
      simp [List.append_assoc]
    rw [hmid]
    exact containsSub_mid _ _ _
  have hstks : ∀ bad stks : Str,
      containsSub (leakMessage bad stks) stks = true := by
    intro bad stks
    have hmid : leakMessage bad stks =
        (("appears to have leaked ").data ++ bad ++ (":\n").data) ++ stks ++ [] := by
      simp only [leakMessage]
      simp [List.append_assoc]
    rw [hmid]
    exact containsSub_mid _ _ _
  have hbadc : ∀ bad stks : Str,
      containsSub (leakMessage bad stks) bad = true := by
    intro bad stks
    have hmid : leakMessage bad stks =
        ("appears to have leaked ").data ++ bad ++ ((":\n").data ++ stks) := by
      simp only [leakMessage]
      simp [List.append_assoc]
    rw [hmid]
    exact containsSub_mid _ _ _
  constructor
  · intro d order dumps bad stks hd hsome
    have hall : ∀ k, k < numPolls d → interestingGoroutines (dumps k) ≠ [] := by
      intro k hk hempty
      have : checkAfterTest d order dumps = none :=
        (checkAfterTest_none_iff d order dumps).mpr ⟨k, hk, hempty⟩
      rw [this] at hsome
      cases hsome
    have hres := checkAfterTest_fail d order dumps hd hall
    rw [hres] at hsome
    have hinj := Option.some.inj hsome
    have hbad : bad = computeBad order
        (joinNN (interestingGoroutines (dumps (numPolls d - 1)))) :=
      (congrArg Prod.fst hinj).symm
    have hstk : stks = joinNN (interestingGoroutines (dumps (numPolls d - 1))) :=
      (congrArg Prod.snd hinj).symm
    subst hstk
    refine ⟨rfl, hbad, ?_, ?_, hbadc bad _, hleaked bad _, hstks bad _⟩
    · intro hnone
      rw [hbad]
      exact computeBad_nomatch _ order hnone
    · intro hex
      obtain ⟨p, hp, hc, he⟩ := computeBad_match _ order hex
      exact ⟨p, hp, hc, by rw [hbad, he]⟩
  · intro d order hd hperm
    have hint : interestingGoroutines wlDump = [wlBody] := by decide
    have hall : ∀ k, k < numPolls d →
        interestingGoroutines ((fun _ => wlDump) k) ≠ [] := by
      intro k _
      simp [hint]
    have hres := checkAfterTest_fail d order (fun _ => wlDump) hd hall
    have hj : joinNN (interestingGoroutines wlDump) = wlBody := by
      rw [hint]
      rfl
    refine ⟨computeBad order wlBody, wlBody, ?_, ?_⟩
    · rw [hres]
      simp only [hint]
      rfl
    · have hbadv : computeBad order wlBody = ("a Transport").data := by
        apply computeBad_unique
        · refine ⟨((").writeLoop(").data, ("a Transport").data), ?_, by decide⟩
          rw [hperm.mem_iff]
          decide
        · intro p hp hc
          have hpmem : p ∈ badSubstring := hperm.mem_iff.mp hp
          exact (by decide : ∀ p ∈ badSubstring,
            containsSub wlBody p.1 = true → p.2 = ("a Transport").data) p hpmem hc
      rw [hbadv]
      have hmid : leakMessage (("a Transport").data) wlBody =
          ("appears to have leaked ").data ++ ("a Transport").data ++
            ((":\n").data ++ wlBody) := by
        simp only [leakMessage]
        simp [List.append_assoc]
      rw [hmid]
      exact containsSub_mid _ _ _

/-- Witness for C3: the writeLoop scenario at the full 1 s window and the
source's table order. -/
theorem claimC3_witness :
    ∃ bad stks,
      checkAfterTest 1000 badSubstring (fun _ => wlDump) = some (bad, stks)
      ∧ containsSub (leakMessage bad stks) (("a Transport").data) = true :=
  claimC3_failure_message.2 1000 badSubstring (by norm_num) (List.Perm.refl _)

/-- Claim C7: if, when `RegisterLeakDetection` runs, the process already has at
least one leaked (non-allowlisted) goroutine persisting through every poll of
the short 10 ms pre-test window, the test is skipped, not failed. -/
theorem claimC7_pretest_skip (order : List (Str × Str)) (dumps : Nat → Str)
    (h : ∀ k, k < numPolls 10 → interestingGoroutines (dumps k) ≠ []) :
    registerLeakDetection order dumps = RegOutcome.skipped := by
  have hres := checkAfterTest_fail 10 order dumps (by norm_num) h
  rw [registerLeakDetection, hres]

/-- Witness for C7: a persistently leaking process makes registration skip. -/
theorem claimC7_witness :
    registerLeakDetection badSubstring (fun _ => wlDump) = RegOutcome.skipped :=
  claimC7_pretest_skip badSubstring (fun _ => wlDump)
    (fun k _ => by
      have hint : interestingGoroutines wlDump = [wlBody] := by decide
      simp [hint])

/-- Claim C8: if the test has already failed when the registered cleanup runs,
the after-test leak check is not performed: nothing is reported, whatever the
goroutine dumps look like. -/
theorem claimC8_failed_skips_check (order : List (Str × Str))
    (dumps dumps' : Nat → Str) :
    afterTest true order dumps = none
    ∧ afterTest true order dumps = afterTest true order dumps' :=
  ⟨rfl, rfl⟩

/-- Claim C9: the suite entry point exits 0 when the suite passes and the
reporter finds no leak, propagates the suite's own non-zero status without
running the reporter when the suite fails, and exits 1 when the suite passed
but the reporter found a leak. -/
theorem claimC9_exit_status (v : Nat) (order : List (Str × Str))
    (dumps : Nat → Str) (finalBuf : Str) :
    (v = 0 → (checkLeakedGoroutine finalBuf).1 = false →
      mustTestMainWithLeakDetection v order dumps finalBuf = 0)
    ∧ (v ≠ 0 → mustTestMainWithLeakDetection v order dumps finalBuf = v
        ∧ ∀ finalBuf' : Str, mustTestMainWithLeakDetection v order dumps finalBuf
            = mustTestMainWithLeakDetection v order dumps finalBuf')
    ∧ (v = 0 → (checkLeakedGoroutine finalBuf).1 = true →
      mustTestMainWithLeakDetection v order dumps finalBuf = 1) := by
  refine ⟨?_, ?_, ?_⟩
  · intro hv hclean
    subst hv
    simp [mustTestMainWithLeakDetection, mustCheckLeakedGoroutine, hclean]
  · intro hv
    constructor
    · simp [mustTestMainWithLeakDetection, hv]
    · intro finalBuf'
      simp [mustTestMainWithLeakDetection, hv]
  · intro hv hleak
    subst hv
    simp [mustTestMainWithLeakDetection, mustCheckLeakedGoroutine, hleak]

/-- Witness for C9 at concrete inputs: leak after green suite gives 1, clean
run gives 0, failing suite propagates its status 7. -/
theorem claimC9_witness :
    mustTestMainWithLeakDetection 0 badSubstring (fun _ => []) demoDump = 1
    ∧ mustTestMainWithLeakDetection 0 badSubstring (fun _ => []) [] = 0
    ∧ mustTestMainWithLeakDetection 7 badSubstring (fun _ => []) demoDump = 7 :=
  ⟨(claimC9_exit_status 0 badSubstring (fun _ => []) demoDump).2.2 rfl (by decide),
   (claimC9_exit_status 0 badSubstring (fun _ => []) []).1 rfl (by decide),
   ((claimC9_exit_status 7 badSubstring (fun _ => []) demoDump).2.1 (by decide)).1⟩

/-- Claim C10: for a non-positive timeout, `checkAfterTest` performs no poll
and fails unconditionally — even with zero interesting goroutines — with empty
badness label and empty stack text in the message. -/
theorem claimC10_nonpositive_timeout (d : Int) (hd : d ≤ 0)
    (order : List (Str × Str)) (dumps : Nat → Str) :
    checkAfterTest d order dumps = some ([], [])
    ∧ numPolls d = 0
    ∧ leakMessage [] [] = ("appears to have leaked :\n").data := by
  have h0 : numPolls d = 0 := by
    rw [numPolls, if_pos hd]
  refine ⟨?_, h0, by decide⟩
  rw [checkAfterTest, h0]
  rfl

/-- Witness for C10 at the concrete timeout -1 and a clean process. -/
theorem claimC10_witness :
    checkAfterTest (-1) badSubstring (fun _ => ([] : Str)) = some ([], []) :=
  (claimC10_nonpositive_timeout (-1) (by norm_num) badSubstring
    (fun _ => ([] : Str))).1

theorem matchRun_length : ∀ u r : Str, matchRun u = some r → r.length < u.length := by
  intro u
  induction u with
  | nil => intro r hr; simp [matchRun] at hr
  | cons a u ih =>
    intro r hr
    simp only [matchRun] at hr
    split at hr
    · cases hr; simp
    · split at hr
      · exact Nat.lt_trans (ih r hr) (Nat.lt_succ_self _)
      · cases hr

theorem matchAddr_length : ∀ u r : Str, matchAddr u = some r → r.length < u.length := by
  intro u r hr
  cases u with
  | nil => simp [matchAddr] at hr
  | cons a u =>
    simp only [matchAddr] at hr
    split at hr
    · exact Nat.lt_trans (matchRun_length u r hr) (Nat.lt_succ_self _)
    · cases hr

theorem normalizeF_nil : ∀ n : Nat, normalizeF n [] = [] := by
  intro n; cases n <;> rfl

theorem normalizeF_succ_ne (fuel : Nat) (c : Char) (t : Str) (h : c ≠ '(') :
    normalizeF (fuel + 1) (c :: t) = c :: normalizeF fuel t := by
  simp [normalizeF, h]

theorem normalizeF_succ_paren_none (fuel : Nat) (t : Str) (h : matchAddr t = none) :
    normalizeF (fuel + 1) ('(' :: t) = '(' :: normalizeF fuel t := by
  simp [normalizeF, h]

theorem normalizeF_succ_paren_some (fuel : Nat) (t r : Str) (h : matchAddr t = some r) :
    normalizeF (fuel + 1) ('(' :: t) =
      '(' :: '.' :: '.' :: '.' :: ')' :: normalizeF fuel r := by
  simp [normalizeF, h]

theorem normalizeF_congr : ∀ (n : Nat) (s : Str), s.length ≤ n →
    ∀ m : Nat, s.length ≤ m → normalizeF n s = normalizeF m s := by
  intro n
  induction n with
  | zero =>
    intro s hs m _
    have : s = [] := List.length_eq_zero.mp (Nat.le_zero.mp hs)
    subst this
    rw [normalizeF_nil, normalizeF_nil]
  | succ n ih =>
    intro s hs m hm
    cases s with
    | nil => rw [normalizeF_nil, normalizeF_nil]
    | cons c t =>
      cases m with
      | zero => simp at hm
      | succ m =>
        have htn : t.length ≤ n := by simp at hs; omega
        have htm : t.length ≤ m := by simp at hm; omega
        by_cases hc : c = '('
        · subst hc
          cases hma : matchAddr t with
          | none =>
            rw [normalizeF_succ_paren_none n t hma,
              normalizeF_succ_paren_none m t hma, ih t htn m htm]
          | some r =>
            have hr := matchAddr_length t r hma
            rw [normalizeF_succ_paren_some n t r hma,
              normalizeF_succ_paren_some m t r hma,
              ih r (by omega) m (by omega)]
        · rw [normalizeF_succ_ne n c t hc, normalizeF_succ_ne m c t hc,
            ih t htn m htm]

theorem normalize_nil : normalize [] = [] := rfl

theorem normalize_cons_ne (c : Char) (t : Str) (h : c ≠ '(') :
    normalize (c :: t) = c :: normalize t := by
  rw [normalize, normalize]
  simp only [List.length_cons]
  rw [normalizeF_succ_ne t.length c t h]

theorem normalize_paren_none (t : Str) (h : matchAddr t = none) :
    normalize ('(' :: t) = '(' :: normalize t := by
  rw [normalize, normalize]
  simp only [List.length_cons]
  rw [normalizeF_succ_paren_none t.length t h]

theorem normalize_paren_some (t r : Str) (h : matchAddr t = some r) :
    normalize ('(' :: t) = '(' :: '.' :: '.' :: '.' :: ')' :: normalize r := by
  rw [normalize, normalize]
  simp only [List.length_cons]
  rw [normalizeF_succ_paren_some t.length t r h]
  have := matchAddr_length t r h
  rw [normalizeF_congr t.length r (by omega) r.length (Nat.le_refl _)]

theorem isAddrChar_lparen : isAddrChar '(' = false := by decide

theorem isAddrChar_rparen : isAddrChar ')' = false := by decide

theorem isAddrChar_dot : isAddrChar '.' = false := by decide

theorem matchRun_normalize_none :
    ∀ (n : Nat) (t : Str), t.length ≤ n → matchRun t = none →
      matchRun (normalize t) = none := by
  intro n
  induction n with
  | zero =>
    intro t ht _
    have : t = [] := List.length_eq_zero.mp (Nat.le_zero.mp ht)
    subst this
    rw [normalize_nil]
    rfl
  | succ n ih =>
    intro t ht h
    cases t with
    | nil => rw [normalize_nil]; rfl
    | cons c t =>
      have htn : t.length ≤ n := by simp at ht; omega
      by_cases hc : c = ')'
      · subst hc; simp [matchRun] at h
      · by_cases ha : isAddrChar c = true
        · have hcp : c ≠ '(' := by
            intro e; subst e; exact absurd ha (by decide)
          have h' : matchRun t = none := by
            simpa [matchRun, hc, ha] using h
          rw [normalize_cons_ne c t hcp]
          simp only [matchRun, if_neg hc, ha, if_true]
          exact ih t htn h'
        · by_cases hcp : c = '('
          · subst hcp
            cases hma : matchAddr t with
            | some r =>
              rw [normalize_paren_some t r hma]
              simp [matchRun, isAddrChar_lparen]
            | none =>
              rw [normalize_paren_none t hma]
              simp [matchRun, isAddrChar_lparen]
          · rw [normalize_cons_ne c t hcp]
            simp [matchRun, hc, ha]

theorem matchAddr_normalize_none {t : Str} (h : matchAddr t = none) :
    matchAddr (normalize t) = none := by
  cases t with
  | nil => rw [normalize_nil]; rfl
  | cons c t =>
    by_cases hc : c = '0'
    · subst hc
      have h' : matchRun t = none := by simpa [matchAddr] using h
      rw [normalize_cons_ne '0' t (by decide)]
      simp only [matchAddr, if_pos rfl]
      exact matchRun_normalize_none t.length t (Nat.le_refl _) h'
    · by_cases hcp : c = '('
      · subst hcp
        cases hma : matchAddr t with
        | some r =>
          rw [normalize_paren_some t r hma]
          simp [matchAddr]
        | none =>
          rw [normalize_paren_none t hma]
          simp [matchAddr]
      · rw [normalize_cons_ne c t hcp]
        simp [matchAddr, hc]

theorem normalize_idem_aux :
    ∀ (n : Nat) (s : Str), s.length ≤ n →
      normalize (normalize s) = normalize s := by
  intro n
  induction n with
  | zero =>
    intro s hs
    have : s = [] := List.length_eq_zero.mp (Nat.le_zero.mp hs)
    subst this
    rw [normalize_nil, normalize_nil]
  | succ n ih =>
    intro s hs
    cases s with
    | nil => rw [normalize_nil, normalize_nil]
    | cons c t =>
      have htn : t.length ≤ n := by simp at hs; omega
      by_cases hcp : c = '('
      · subst hcp
        cases hma : matchAddr t with
        | none =>
          rw [normalize_paren_none t hma,
            normalize_paren_none (normalize t) (matchAddr_normalize_none hma),
            ih t htn]
        | some r =>
          rw [normalize_paren_some t r hma]
          have hd : matchAddr ('.' :: '.' :: '.' :: ')' :: normalize r) = none := by
            simp [matchAddr]
          rw [normalize_paren_none _ hd,
            normalize_cons_ne '.' _ (by decide),
            normalize_cons_ne '.' _ (by decide),
            normalize_cons_ne '.' _ (by decide),
            normalize_cons_ne ')' _ (by decide)]
          have hr := matchAddr_length t r hma
          rw [ih r (by omega)]
      · rw [normalize_cons_ne c t hcp, normalize_cons_ne c (normalize t) hcp,
          ih t htn]

/-- Claim C4: normalization is idempotent — applying the pointer-address
replacement to an already-normalized trace yields the same text. -/
theorem claimC4_normalize_idem (s : Str) :
    normalize (normalize s) = normalize s :=
  normalize_idem_aux s.length s (Nat.le_refl _)

theorem matchRun_lit (r : Str) (h : ∀ c ∈ r, isAddrChar c = true) (s : Str) :
    matchRun (r ++ ')' :: s) = some s := by
  induction r with
  | nil => simp [matchRun]
  | cons a r ih =>
    have ha : isAddrChar a = true := h a (List.mem_cons_self a r)
    have hne : a ≠ ')' := by
      intro e
      subst e
      rw [isAddrChar_rparen] at ha
      cases ha
    simp only [List.cons_append, matchRun, if_neg hne, ha, if_true]
    exact ih (fun c hc => h c (List.mem_cons_of_mem a hc))

theorem matchAddr_lit (r : Str) (h : ∀ c ∈ r, isAddrChar c = true) (s : Str) :
    matchAddr ('0' :: (r ++ ')' :: s)) = some s := by
  simp only [matchAddr, if_pos rfl]
  exact matchRun_lit r h s

theorem normalize_lit (r : Str) (h : ∀ c ∈ r, isAddrChar c = true) (s : Str) :
    normalize ('(' :: '0' :: (r ++ ')' :: s)) =
      '(' :: '.' :: '.' :: '.' :: ')' :: normalize s :=
  normalize_paren_some _ s (matchAddr_lit r h s)

theorem matchRun_congr {s t : Str} (h : AddrEquiv s t) :
    (matchRun s = none ∧ matchRun t = none) ∨
      ∃ s' t', matchRun s = some s' ∧ matchRun t = some t' ∧ AddrEquiv s' t'
        ∧ s'.length < s.length := by
  induction h with
  | nil => left; exact ⟨rfl, rfl⟩
  | cons c h ih =>
    rename_i s0 t0
    by_cases hc : c = ')'
    · subst hc
      right
      refine ⟨s0, t0, ?_, ?_, h, ?_⟩
      · simp [matchRun]
      · simp [matchRun]
      · simp
    · by_cases ha : isAddrChar c = true
      · rcases ih with ⟨h1, h2⟩ | ⟨s', t', hs', ht', he, hl⟩
        · left
          constructor <;> simp [matchRun, hc, ha, h1, h2]
        · right
          refine ⟨s', t', ?_, ?_, he, ?_⟩
          · simp [matchRun, hc, ha, hs']
          · simp [matchRun, hc, ha, ht']
          · simp
            omega
      · left
        constructor <;> simp [matchRun, hc, ha]
  | lit h1 h2 h ih =>
    left
    constructor <;> simp [matchRun, isAddrChar_lparen]

theorem matchAddr_congr {s t : Str} (h : AddrEquiv s t) :
    (matchAddr s = none ∧ matchAddr t = none) ∨
      ∃ s' t', matchAddr s = some s' ∧ matchAddr t = some t' ∧ AddrEquiv s' t'
        ∧ s'.length < s.length := by
  cases h with
  | nil => left; exact ⟨rfl, rfl⟩
  | cons c h =>
    rename_i s0 t0
    by_cases hc : c = '0'
    · subst hc
      rcases matchRun_congr h with ⟨h1, h2⟩ | ⟨s', t', hs', ht', he, hl⟩
      · left
        constructor <;> simp [matchAddr, h1, h2]
      · right
        refine ⟨s', t', ?_, ?_, he, ?_⟩
        · simp [matchAddr, hs']
        · simp [matchAddr, ht']
        · simp
          omega
    · left
      constructor <;> simp [matchAddr, hc]
  | lit h1 h2 h =>
    left
    constructor <;> simp [matchAddr]

theorem normalize_addrEquiv_aux :
    ∀ (n : Nat) {s t : Str}, s.length ≤ n → AddrEquiv s t →
      normalize s = normalize t := by
  intro n
  induction n with
  | zero =>
    intro s t hs h
    have hnil : s = [] := List.length_eq_zero.mp (Nat.le_zero.mp hs)
    subst hnil
    cases h
    rfl
  | succ n ih =>
    intro s t hs h
    cases h with
    | nil => rfl
    | cons c h' =>
      rename_i s0 t0
      have hsn : s0.length ≤ n := by simp at hs; omega
      by_cases hc : c = '('
      · subst hc
        rcases matchAddr_congr h' with ⟨h1, h2⟩ | ⟨s', t', hs', ht', he, hl⟩
        · rw [normalize_paren_none s0 h1, normalize_paren_none t0 h2, ih hsn h']
        · rw [normalize_paren_some s0 s' hs', normalize_paren_some t0 t' ht',
            ih (by omega) he]
      · rw [normalize_cons_ne c s0 hc, normalize_cons_ne c t0 hc, ih hsn h']
    | lit h1 h2 h' =>
      rename_i r1 r2 s0 t0
      rw [normalize_lit r1 h1 s0, normalize_lit r2 h2 t0]
      have hs0 : s0.length ≤ n := by
        simp [List.length_append] at hs
        omega
      rw [ih hs0 h']

theorem lookupN_incr_self : ∀ (l : List (Str × Nat)) (k : Str),
    lookupN (incr l k) k = lookupN l k + 1 := by
  intro l
  induction l with
  | nil => intro k; simp [incr, lookupN]
  | cons q r ih =>
    intro k
    rcases q with ⟨k', n⟩
    by_cases hq : k' = k
    · simp [incr, lookupN, hq]
    · simp only [incr, if_neg hq, lookupN, ih k]

theorem lookupN_incr_ne : ∀ (l : List (Str × Nat)) (k k2 : Str), k ≠ k2 →
    lookupN (incr l k) k2 = lookupN l k2 := by
  intro l
  induction l with
  | nil =>
    intro k k2 hne
    simp [incr, lookupN, hne]
  | cons q r ih =>
    intro k k2 hne
    rcases q with ⟨k', n⟩
    by_cases hq : k' = k
    · subst hq
      simp [incr, lookupN, hne]
    · simp only [incr, if_neg hq, lookupN, ih k k2 hne]

theorem buildCount_go_lookup : ∀ (gs : List Str) (acc : List (Str × Nat)) (k : Str),
    lookupN (gs.foldl (fun acc g => incr acc (normalize g)) acc) k =
      lookupN acc k + List.countP (fun g => normalize g == k) gs := by
  intro gs
  induction gs with
  | nil => intro acc k; simp
  | cons g gs ih =>
    intro acc k
    simp only [List.foldl_cons, List.countP_cons]
    rw [ih]
    by_cases hk : normalize g = k
    · rw [hk, lookupN_incr_self]
      simp [hk]
      omega
    · rw [lookupN_incr_ne _ _ _ hk]
      simp [hk]

theorem buildCount_lookup (gs : List Str) (k : Str) :
    lookupN (buildCount gs) k = List.countP (fun g => normalize g == k) gs := by
  rw [buildCount, buildCount_go_lookup]
  simp [lookupN]

theorem incr_keys_mem : ∀ (l : List (Str × Nat)) (k x : Str),
    x ∈ (incr l k).map Prod.fst ↔ x = k ∨ x ∈ l.map Prod.fst := by
  intro l
  induction l with
  | nil => intro k x; simp [incr]
  | cons q r ih =>
    intro k x
    rcases q with ⟨k', n⟩
    by_cases hq : k' = k
    · subst hq
      have hstep : incr ((k', n) :: r) k' = (k', n + 1) :: r := by simp [incr]
      rw [hstep]
      simp only [List.map_cons, List.mem_cons]
      tauto
    · simp only [incr, if_neg hq, List.map_cons, List.mem_cons, ih]
      tauto

theorem incr_keys_nodup : ∀ (l : List (Str × Nat)) (k : Str),
    (l.map Prod.fst).Nodup → ((incr l k).map Prod.fst).Nodup := by
  intro l
  induction l with
  | nil => intro k _; simp [incr]
  | cons q r ih =>
    intro k h
    rcases q with ⟨k', n⟩
    simp only [List.map_cons, List.nodup_cons] at h
    obtain ⟨hk', hr⟩ := h
    by_cases hq : k' = k
    · subst hq
      have hstep : incr ((k', n) :: r) k' = (k', n + 1) :: r := by simp [incr]
      rw [hstep]
      simp only [List.map_cons, List.nodup_cons]
      exact ⟨hk', hr⟩
    · simp only [incr, if_neg hq, List.map_cons, List.nodup_cons]
      refine ⟨?_, ih k hr⟩
      intro hmem
      rcases (incr_keys_mem r k k').mp hmem with rfl | hmem
      · exact hq rfl
      · exact hk' hmem

theorem buildCount_go_keys : ∀ (gs : List Str) (acc : List (Str × Nat)) (x : Str),
    x ∈ (gs.foldl (fun acc g => incr acc (normalize g)) acc).map Prod.fst ↔
      x ∈ acc.map Prod.fst ∨ ∃ g ∈ gs, normalize g = x := by
  intro gs
  induction gs with
  | nil => intro acc x; simp
  | cons g gs ih =>
    intro acc x
    simp only [List.foldl_cons]
    rw [ih, incr_keys_mem]
    constructor
    · rintro ((h | h) | ⟨g', hg', hx⟩)
      · exact Or.inr ⟨g, List.mem_cons_self g gs, h.symm⟩
      · exact Or.inl h
      · exact Or.inr ⟨g', List.mem_cons_of_mem g hg', hx⟩
    · rintro (h | ⟨g', hg', hx⟩)
      · exact Or.inl (Or.inr h)
      · rcases List.mem_cons.mp hg' with rfl | hg'
        · exact Or.inl (Or.inl hx.symm)
        · exact Or.inr ⟨g', hg', hx⟩

theorem buildCount_go_nodup : ∀ (gs : List Str) (acc : List (Str × Nat)),
    (acc.map Prod.fst).Nodup →
    ((gs.foldl (fun acc g => incr acc (normalize g)) acc).map Prod.fst).Nodup := by
  intro gs
  induction gs with
  | nil => intro acc h; simpa using h
  | cons g gs ih =>
    intro acc h
    simp only [List.foldl_cons]
    exact ih _ (incr_keys_nodup acc (normalize g) h)

theorem mem_lookupN_of_nodup : ∀ (l : List (Str × Nat)),
    (l.map Prod.fst).Nodup → ∀ p ∈ l, lookupN l p.1 = p.2 := by
  intro l
  induction l with
  | nil => intro _ p hp; cases hp
  | cons q r ih =>
    intro h p hp
    simp only [List.map_cons, List.nodup_cons] at h
    obtain ⟨hq, hr⟩ := h
    rcases List.mem_cons.mp hp with rfl | hp2
    · rcases p with ⟨k, n⟩
      simp [lookupN]
    · rcases q with ⟨k', n'⟩
      have hne : k' ≠ p.1 := by
        intro e
        apply hq
        rw [e]
        exact List.mem_map.mpr ⟨p, hp2, rfl⟩
      simp only [lookupN, if_neg hne]
      exact ih hr p hp2

/-- Claim C5: two surviving traces identical except for differing parenthesized
pointer-address literals normalize to the same signature, and the Reporter's
`stackCount` tallies every occurrence of that signature — in particular both
traces — under one count. -/
theorem claimC5_same_signature {g1 g2 : Str} (h : AddrEquiv g1 g2) :
    normalize g1 = normalize g2
    ∧ ∀ pre mid post : List Str,
        lookupN (buildCount (pre ++ g1 :: mid ++ g2 :: post)) (normalize g1) =
          List.countP (fun g => normalize g == normalize g1)
            (pre ++ g1 :: mid ++ g2 :: post)
        ∧ 2 ≤ lookupN (buildCount (pre ++ g1 :: mid ++ g2 :: post)) (normalize g1) := by
  have hn : normalize g1 = normalize g2 :=
    normalize_addrEquiv_aux g1.length (Nat.le_refl _) h
  refine ⟨hn, ?_⟩
  intro pre mid post
  rw [buildCount_lookup]
  refine ⟨rfl, ?_⟩
  have e1 : (normalize g1 == normalize g1) = true := beq_self_eq_true _
  have e2 : (normalize g2 == normalize g1) = true := by
    rw [← hn]
    exact beq_self_eq_true _
  simp only [List.countP_append, List.countP_cons, e1, e2, if_true]
  omega

/-- Witness for C5: the traces `f(0x12)` and `f(0xab)` differ only in the
address literal; they share one signature counted twice. -/
theorem claimC5_witness :
    normalize (['f', '(', '0', 'x', '1', '2', ')']) =
      normalize (['f', '(', '0', 'x', 'a', 'b', ')'])
    ∧ lookupN
        (buildCount [['f', '(', '0', 'x', '1', '2', ')'],
                     ['f', '(', '0', 'x', 'a', 'b', ')']])
        (normalize ['f', '(', '0', 'x', '1', '2', ')']) = 2 := by
  have hequiv : AddrEquiv ['f', '(', '0', 'x', '1', '2', ')']
      ['f', '(', '0', 'x', 'a', 'b', ')'] :=
    AddrEquiv.cons 'f'
      (@AddrEquiv.lit ['x', '1', '2'] ['x', 'a', 'b'] [] []
        (by decide) (by decide) AddrEquiv.nil)
  have h := claimC5_same_signature hequiv
  refine ⟨h.1, ?_⟩
  have h2 := (h.2 [] [] []).1
  simp only [List.nil_append, List.cons_append] at h2
  rw [h2]
  decide

/-- Claim C6: the Reporter returns false and writes nothing when the classified
surviving set is empty; otherwise it returns true and writes a header line
followed by one count line and the full stack text for each distinct
normalized signature, the count being the number of surviving traces with that
signature. -/
theorem claimC6_reporter (buf : Str) :
    (interestingGoroutines buf = [] → checkLeakedGoroutine buf = (false, []))
    ∧ (interestingGoroutines buf ≠ [] →
        (checkLeakedGoroutine buf).1 = true
        ∧ (checkLeakedGoroutine buf).2 =
            header :: (buildCount (interestingGoroutines buf)).map fmtLine
        ∧ ((buildCount (interestingGoroutines buf)).map Prod.fst).Nodup
        ∧ (∀ sig : Str,
            sig ∈ (buildCount (interestingGoroutines buf)).map Prod.fst ↔
              ∃ g ∈ interestingGoroutines buf, normalize g = sig)
        ∧ (∀ p ∈ buildCount (interestingGoroutines buf),
            p.2 = List.countP (fun g => normalize g == p.1)
              (interestingGoroutines buf))) := by
  constructor
  · intro h
    simp [checkLeakedGoroutine, h]
  · intro h
    refine ⟨?_, ?_, ?_, ?_, ?_⟩
    · simp [checkLeakedGoroutine, h]
    · simp [checkLeakedGoroutine, h]
    · exact buildCount_go_nodup _ [] (by simp)
    · intro sig
      rw [buildCount, buildCount_go_keys]
      simp
    · intro p hp
      have hnodup : ((buildCount (interestingGoroutines buf)).map Prod.fst).Nodup :=
        buildCount_go_nodup _ [] (by simp)
      have h1 := mem_lookupN_of_nodup _ hnodup p hp
      have h2 := buildCount_lookup (interestingGoroutines buf) p.1
      rw [← h1, h2]

/-- Witness for C6 at concrete dumps: the empty process reports nothing; the
demo leak reports the header and its count lines. -/
theorem claimC6_witness :
    checkLeakedGoroutine ([] : Str) = (false, [])
    ∧ (checkLeakedGoroutine demoDump).1 = true
    ∧ (checkLeakedGoroutine demoDump).2 =
        header :: (buildCount (interestingGoroutines demoDump)).map fmtLine :=
  ⟨(claimC6_reporter []).1 (by decide),
   ((claimC6_reporter demoDump).2 (by decide)).1,
   ((claimC6_reporter demoDump).2 (by decide)).2.1⟩

end LeakCheck
